import Mathlib

/-!
Verification of the FTL control plane (credential-swap proxy, snapshot store,
sandbox lifecycle, diff engine, orchestrator audit log) against its
natural-language specification.

Byte strings are modelled as `List Nat` (one `Nat` per byte / code point);
Python dictionaries as association lists; filesystem and Docker state as
explicit records.  Each definition is a shallow embedding of the Python
function named in its doc comment.
-/

namespace Ftl

/-! ## Credential-swap proxy: `_ProxyHandler._swap` (src/ftl/proxy.py)

`bytes.replace` in Python replaces every non-overlapping occurrence of the
pattern, scanning left to right.  `listReplace` embeds it; `replaceEmpty`
covers Python's behaviour for an empty pattern (`b"ab".replace(b"", b"X")
= b"XaXbX"`). -/

/-- Python `bytes.replace` with an empty pattern: the replacement is inserted
before every byte and at the end. -/
def replaceEmpty (repl : List Nat) : List Nat → List Nat
  | [] => repl
  | c :: rest => repl ++ c :: replaceEmpty repl rest

/-- Scanning loop of Python `bytes.replace` for a nonempty pattern: at each
position, if the pattern is a prefix of the remaining input, emit the
replacement and skip the matched bytes, otherwise emit the byte and move on.
The fuel is an upper bound on the input length, so the `(0, s)` fallback is
never reached on the intended calls. -/
def listReplaceGo (pat repl : List Nat) : Nat → List Nat → List Nat
  | _, [] => []
  | 0, s => s
  | fuel + 1, c :: rest =>
    if pat.isPrefixOf (c :: rest) then
      repl ++ listReplaceGo pat repl fuel ((c :: rest).drop pat.length)
    else
      c :: listReplaceGo pat repl fuel rest

/-- Embedding of Python `data.replace(pat, repl)` on byte strings:
left-to-right replacement of non-overlapping occurrences. -/
def listReplace (pat repl s : List Nat) : List Nat :=
  if pat = [] then replaceEmpty repl s
  else listReplaceGo pat repl s.length s

/-- Embedding of `_ProxyHandler._swap`: fold over the swap table in iteration
order; each entry is applied only when its placeholder occurs in the current
buffer (`if shadow.encode() in data`). -/
def swap (table : List (List Nat × List Nat)) (data : List Nat) : List Nat :=
  table.foldl
    (fun d sr => if sr.1 <:+: d then listReplace sr.1 sr.2 d else d)
    data

theorem swap_cons (pr : List Nat × List Nat) (rest : List (List Nat × List Nat))
    (data : List Nat) :
    swap (pr :: rest) data =
      swap rest (if pr.1 <:+: data then listReplace pr.1 pr.2 data else data) := rfl

/-! ### Auxiliary lemmas about `listReplace` -/

theorem prefix_cons_decomp {x : Nat} {l p : List Nat} (hp : p ≠ []) (h : p <+: x :: l) :
    ∃ p', p = x :: p' ∧ p' <+: l := by
  rcases p with _ | ⟨a, p'⟩
  · exact absurd rfl hp
  · rcases h with ⟨t, ht⟩
    injection ht with h1 h2
    exact ⟨p', by rw [h1], ⟨t, h2⟩⟩

/-- An infix of `a ++ b` that is nonempty and shares no element with `a`
is an infix of `b`. -/
theorem infix_append_right {q : List Nat} (hq : q ≠ []) :
    ∀ (a : List Nat) {b : List Nat}, (∀ c ∈ a, c ∉ q) → q <:+: a ++ b → q <:+: b := by
  intro a
  induction a with
  | nil => intro b _ h; simpa using h
  | cons c a ih =>
    intro b hdisj h
    rw [List.cons_append] at h
    rcases List.infix_cons_iff.mp h with hpre | hinf
    · obtain ⟨q', hq', -⟩ := prefix_cons_decomp hq hpre
      have hcq : c ∈ q := by rw [hq']; exact List.mem_cons_self c q'
      exact absurd hcq (hdisj c (List.mem_cons_self c a))
    · exact ih (fun d hd => hdisj d (List.mem_cons_of_mem _ hd)) hinf

/-- A nonempty prefix of the replacement output whose elements avoid the
replacement string must already be a prefix of the input. -/
theorem listReplaceGo_prefix {pat repl : List Nat} (hpat : pat ≠ []) (hrepl : repl ≠ []) :
    ∀ (fuel : Nat) (s t : List Nat), s.length ≤ fuel → t ≠ [] →
      (∀ c ∈ repl, c ∉ t) → t <+: listReplaceGo pat repl fuel s → t <+: s := by
  intro fuel
  induction fuel with
  | zero =>
    intro s t hs ht _ hpre
    have hsnil : s = [] := List.eq_nil_of_length_eq_zero (Nat.le_zero.mp hs)
    subst hsnil
    simp only [listReplaceGo] at hpre
    exact absurd (List.prefix_nil.mp hpre) ht
  | succ fuel ih =>
    intro s t hs ht hdisj hpre
    cases s with
    | nil =>
      simp only [listReplaceGo] at hpre
      exact absurd (List.prefix_nil.mp hpre) ht
    | cons c rest =>
      cases hm : pat.isPrefixOf (c :: rest) with
      | true =>
        simp only [listReplaceGo, hm, if_true] at hpre
        rcases repl with _ | ⟨r0, repl'⟩
        · exact absurd rfl hrepl
        · rw [List.cons_append] at hpre
          obtain ⟨t', ht', -⟩ := prefix_cons_decomp ht hpre
          have hr0t : r0 ∈ t := by rw [ht']; exact List.mem_cons_self r0 t'
          exact absurd hr0t (hdisj r0 (List.mem_cons_self r0 repl'))
      | false =>
        simp only [listReplaceGo, hm, if_false, Bool.false_eq_true] at hpre
        obtain ⟨t', ht', hpre'⟩ := prefix_cons_decomp ht hpre
        by_cases ht'e : t' = []
        · subst ht'e
          rw [ht']
          exact ⟨rest, rfl⟩
        · have hsub : ∀ c' ∈ repl, c' ∉ t' := by
            intro c' hc' hmem
            exact hdisj c' hc' (by rw [ht']; exact List.mem_cons_of_mem _ hmem)
          have hlen : rest.length ≤ fuel := by
            simpa using Nat.le_of_succ_le_succ hs
          have := ih rest t' hlen ht'e hsub hpre'
          rw [ht']
          rcases this with ⟨u, hu⟩
          exact ⟨u, by rw [List.cons_append, hu]⟩

/-- The replacement output never contains the pattern, provided the
replacement string is nonempty and shares no element with the pattern. -/
theorem listReplaceGo_self_not_infix {pat repl : List Nat} (hpat : pat ≠ [])
    (hrepl : repl ≠ []) (hdisj : ∀ c ∈ repl, c ∉ pat) :
    ∀ (fuel : Nat) (s : List Nat), s.length ≤ fuel →
      ¬ pat <:+: listReplaceGo pat repl fuel s := by
  intro fuel
  induction fuel with
  | zero =>
    intro s hs h
    have hsnil : s = [] := List.eq_nil_of_length_eq_zero (Nat.le_zero.mp hs)
    subst hsnil
    simp only [listReplaceGo] at h
    exact hpat (List.eq_nil_of_length_eq_zero (Nat.le_zero.mp h.length_le))
  | succ fuel ih =>
    intro s hs h
    cases s with
    | nil =>
      simp only [listReplaceGo] at h
      exact hpat (List.eq_nil_of_length_eq_zero (Nat.le_zero.mp h.length_le))
    | cons c rest =>
      cases hm : pat.isPrefixOf (c :: rest) with
      | true =>
        simp only [listReplaceGo, hm, if_true] at h
        have h2 := infix_append_right hpat repl hdisj h
        have hdrop : ((c :: rest).drop pat.length).length ≤ fuel := by
          simp only [List.length_drop, List.length_cons]
          have := List.length_pos.mpr hpat
          simp only [List.length_cons] at hs
          omega
        exact ih _ hdrop h2
      | false =>
        simp only [listReplaceGo, hm, if_false, Bool.false_eq_true] at h
        rcases List.infix_cons_iff.mp h with hpre | hinf
        · obtain ⟨p', hp', hpre'⟩ := prefix_cons_decomp hpat hpre
          by_cases hp'e : p' = []
          · subst hp'e
            rw [hp'] at hm
            simp [List.isPrefixOf] at hm
          · have hsub : ∀ c' ∈ repl, c' ∉ p' := by
              intro c' hc' hmem
              exact hdisj c' hc' (by rw [hp']; exact List.mem_cons_of_mem _ hmem)
            have hlen : rest.length ≤ fuel := by
              simpa using Nat.le_of_succ_le_succ hs
            have hrest := listReplaceGo_prefix hpat hrepl fuel rest p' hlen hp'e hsub hpre'
            have hfull : pat <+: c :: rest := by
              rw [hp']
              rcases hrest with ⟨u, hu⟩
              exact ⟨u, by rw [List.cons_append, hu]⟩
            rw [List.isPrefixOf_iff_prefix.mpr hfull] at hm
            exact Bool.true_eq_false.mp hm
        · have hlen : rest.length ≤ fuel := by
            simpa using Nat.le_of_succ_le_succ hs
          exact ih rest hlen hinf

/-- Replacement does not create new occurrences of an unrelated nonempty
string `q`, provided the replacement string is nonempty and shares no
element with `q`. -/
theorem listReplaceGo_not_infix {pat repl q : List Nat} (hpat : pat ≠ [])
    (hrepl : repl ≠ []) (hq : q ≠ []) (hdisj : ∀ c ∈ repl, c ∉ q) :
    ∀ (fuel : Nat) (s : List Nat), s.length ≤ fuel → ¬ q <:+: s →
      ¬ q <:+: listReplaceGo pat repl fuel s := by
  intro fuel
  induction fuel with
  | zero =>
    intro s hs _ h
    have hsnil : s = [] := List.eq_nil_of_length_eq_zero (Nat.le_zero.mp hs)
    subst hsnil
    simp only [listReplaceGo] at h
    exact hq (List.eq_nil_of_length_eq_zero (Nat.le_zero.mp h.length_le))
  | succ fuel ih =>
    intro s hs hns h
    cases s with
    | nil =>
      simp only [listReplaceGo] at h
      exact hq (List.eq_nil_of_length_eq_zero (Nat.le_zero.mp h.length_le))
    | cons c rest =>
      cases hm : pat.isPrefixOf (c :: rest) with
      | true =>
        simp only [listReplaceGo, hm, if_true] at h
        have h2 := infix_append_right hq repl hdisj h
        have hdrop : ((c :: rest).drop pat.length).length ≤ fuel := by
          simp only [List.length_drop, List.length_cons]
          have := List.length_pos.mpr hpat
          simp only [List.length_cons] at hs
          omega
        have hnd : ¬ q <:+: (c :: rest).drop pat.length := by
          intro hx
          exact hns (hx.trans (List.drop_suffix _ _).isInfix)
        exact ih _ hdrop hnd h2
      | false =>
        simp only [listReplaceGo, hm, if_false, Bool.false_eq_true] at h
        rcases List.infix_cons_iff.mp h with hpre | hinf
        · obtain ⟨q', hq', hpre'⟩ := prefix_cons_decomp hq hpre
          by_cases hq'e : q' = []
          · subst hq'e
            apply hns
            rw [hq']
            have hc : [c] <+: c :: rest := ⟨rest, rfl⟩
            exact hc.isInfix
          · have hsub : ∀ c' ∈ repl, c' ∉ q' := by
              intro c' hc' hmem
              exact hdisj c' hc' (by rw [hq']; exact List.mem_cons_of_mem _ hmem)
            have hlen : rest.length ≤ fuel := by
              simpa using Nat.le_of_succ_le_succ hs
            have hrest := listReplaceGo_prefix hpat hrepl fuel rest q' hlen hq'e hsub hpre'
            apply hns
            have : q <+: c :: rest := by
              rw [hq']
              rcases hrest with ⟨u, hu⟩
              exact ⟨u, by rw [List.cons_append, hu]⟩
            exact this.isInfix
        · have hlen : rest.length ≤ fuel := by
            simpa using Nat.le_of_succ_le_succ hs
          have hnr : ¬ q <:+: rest := fun hx => hns (hx.trans (List.suffix_cons c rest).isInfix)
          exact ih rest hlen hnr hinf

theorem listReplace_self_not_infix {pat repl : List Nat} (hpat : pat ≠ [])
    (hrepl : repl ≠ []) (hdisj : ∀ c ∈ repl, c ∉ pat) (s : List Nat) :
    ¬ pat <:+: listReplace pat repl s := by
  unfold listReplace
  rw [if_neg hpat]
  exact listReplaceGo_self_not_infix hpat hrepl hdisj s.length s le_rfl

theorem listReplace_not_infix {pat repl q : List Nat} (hpat : pat ≠ [])
    (hrepl : repl ≠ []) (hq : q ≠ []) (hdisj : ∀ c ∈ repl, c ∉ q)
    {s : List Nat} (hns : ¬ q <:+: s) : ¬ q <:+: listReplace pat repl s := by
  unfold listReplace
  rw [if_neg hpat]
  exact listReplaceGo_not_infix hpat hrepl hq hdisj s.length s le_rfl hns

/-- Processing further swap-table entries cannot reintroduce a string `q`
avoided by every entry's replacement value. -/
theorem swap_preserves_not_infix {q : List Nat} (hq : q ≠ []) :
    ∀ (table : List (List Nat × List Nat)) (data : List Nat),
      (∀ pr ∈ table, pr.1 ≠ [] ∧ pr.2 ≠ [] ∧ ∀ c ∈ pr.2, c ∉ q) →
      ¬ q <:+: data → ¬ q <:+: swap table data := by
  intro table
  induction table with
  | nil => intro data _ h; simpa [swap] using h
  | cons pr rest ih =>
    intro data hh hnot
    obtain ⟨hp, hr, hd⟩ := hh pr (List.mem_cons_self pr rest)
    rw [swap_cons]
    apply ih _ (fun pr' h' => hh pr' (List.mem_cons_of_mem _ h'))
    by_cases hg : pr.1 <:+: data
    · rw [if_pos hg]
      exact listReplace_not_infix hp hr hq hd hnot
    · rw [if_neg hg]
      exact hnot

theorem swap_no_placeholder_aux :
    ∀ (table : List (List Nat × List Nat)) (data : List Nat),
      (∀ pr ∈ table, pr.1 ≠ [] ∧ pr.2 ≠ []) →
      (∀ pr ∈ table, ∀ pr' ∈ table, ∀ c ∈ pr.2, c ∉ pr'.1) →
      ∀ pr ∈ table, ¬ pr.1 <:+: swap table data := by
  intro table
  induction table with
  | nil => intro data _ _ pr hpr; simp at hpr
  | cons hd rest ih =>
    intro data hne hdisj pr hpr
    rw [swap_cons]
    rcases List.mem_cons.mp hpr with rfl | hmem
    · obtain ⟨hp, hr⟩ := hne pr (List.mem_cons_self pr rest)
      have hself : ∀ c ∈ pr.2, c ∉ pr.1 :=
        hdisj pr (List.mem_cons_self pr rest) pr (List.mem_cons_self pr rest)
      have h1 : ¬ pr.1 <:+: (if pr.1 <:+: data then listReplace pr.1 pr.2 data else data) := by
        by_cases hg : pr.1 <:+: data
        · rw [if_pos hg]
          exact listReplace_self_not_infix hp hr hself data
        · rw [if_neg hg]
          exact hg
      refine swap_preserves_not_infix hp rest _ (fun pr' h' => ?_) h1
      exact ⟨(hne pr' (List.mem_cons_of_mem _ h')).1,
             (hne pr' (List.mem_cons_of_mem _ h')).2,
             hdisj pr' (List.mem_cons_of_mem _ h') pr (List.mem_cons_self pr rest)⟩
    · exact ih _ (fun pr' h' => hne pr' (List.mem_cons_of_mem _ h'))
        (fun pr' h' pr'' h'' => hdisj pr' (List.mem_cons_of_mem _ h')
          pr'' (List.mem_cons_of_mem _ h''))
        pr hmem

/-- **C1** (counterexample): it is not true that for every byte buffer and
every swap table the swapped buffer contains no occurrence of any
placeholder.  With swap table `{"ab" ↦ "xab"}` (bytes `[97,98] ↦
[120,97,98]`) and buffer `"ab"`, the result `"xab"` still contains the
placeholder `"ab"`. -/
theorem swap_counterexample :
    ¬ ∀ (table : List (List Nat × List Nat)) (B : List Nat),
        ∀ pr ∈ table, ¬ pr.1 <:+: swap table B := by
  intro h
  exact h [([97, 98], [120, 97, 98])] [97, 98] ([97, 98], [120, 97, 98])
    (by decide) (by decide)

/-- **C1** (amended): for every byte buffer `B` and swap table in which every
placeholder and every real value is nonempty and no byte of any real value
occurs in any placeholder, `_ProxyHandler._swap` (which replaces, in table
iteration order, every occurrence of each placeholder with its real value)
yields a buffer containing no occurrence of any placeholder. -/
theorem swap_removes_placeholders
    (table : List (List Nat × List Nat)) (B : List Nat)
    (hne : ∀ pr ∈ table, pr.1 ≠ [] ∧ pr.2 ≠ [])
    (hdisj : ∀ pr ∈ table, ∀ pr' ∈ table, ∀ c ∈ pr.2, c ∉ pr'.1)
    (pr : List Nat × List Nat) (hpr : pr ∈ table) :
    ¬ pr.1 <:+: swap table B :=
  swap_no_placeholder_aux table B hne hdisj pr hpr

/-- **C1** witness: the amended theorem applied to the concrete table
`[([1,2],[3,4])]` and buffer `[0,1,2,5]`. -/
theorem swap_removes_placeholders_witness :
    ¬ [1, 2] <:+: swap [([1, 2], [3, 4])] [0, 1, 2, 5] :=
  swap_removes_placeholders [([1, 2], [3, 4])] [0, 1, 2, 5]
    (by decide) (by decide) ([1, 2], [3, 4]) (by decide)

/-! ## S3 snapshot store: `_extract_tarball` (src/ftl/snapshot/s3.py)

Paths are lists of components; the `target` is the already-resolved absolute
target directory.  Symlinks are not modelled: `resolve()` is embedded as
lexical normalisation, which is what it computes for paths that do not yet
exist on disk. -/

/-- A tar member: a path (list of components, where `".."` moves up and
`"."` stays) and content bytes. -/
structure TarMember where
  name : List String
  content : List Nat
deriving DecidableEq

/-- Embedding of `(target / member.name).resolve()`: append the member's
components to the target, with `".."` removing the last component and `"."`
dropped. -/
def resolveUnder (target : List String) (name : List String) : List String :=
  name.foldl
    (fun acc comp =>
      if comp = ".." then acc.dropLast
      else if comp = "." then acc
      else acc ++ [comp])
    target

/-- The guard `str(member_path).startswith(str(target) + "/") or
member_path == target`: on component lists this is exactly "`target` is a
prefix of the resolved member path". -/
def memberPathOk (target : List String) (name : List String) : Bool :=
  target.isPrefixOf (resolveUnder target name)

/-- Embedding of `S3SnapshotStore._extract_tarball`: every member is
validated before anything is extracted; the first member whose resolved path
escapes the target raises `ValueError` (modelled as `Except.error` carrying
the offending member), and only when all members pass does
`tar.extractall(target)` write each member at its resolved path. -/
def extract_tarball (data : List TarMember) (target : List String) :
    Except TarMember (List (List String × List Nat)) :=
  match data.find? (fun m => !(memberPathOk target m.name)) with
  | some m => .error m
  | none => .ok (data.map fun m => (resolveUnder target m.name, m.content))

/-- **C2**: if any member of the tarball resolves outside the target
directory, `_extract_tarball` fails with an error and produces no writes
(the member check precedes all extraction); and whenever extraction
succeeds, every written path lies under the target directory. -/
theorem extract_tarball_rejects_traversal
    (data : List TarMember) (target : List String) :
    ((∃ m ∈ data, ¬ target <+: resolveUnder target m.name) →
      ∃ m, extract_tarball data target = Except.error m) ∧
    (∀ writes, extract_tarball data target = Except.ok writes →
      ∀ w ∈ writes, target <+: w.1) := by
  constructor
  · rintro ⟨m, hm, hbad⟩
    have hpred : (data.find? (fun m => !(memberPathOk target m.name))).isSome := by
      rw [List.find?_isSome]
      refine ⟨m, hm, ?_⟩
      simp only [memberPathOk, Bool.not_eq_true', ← Bool.not_eq_true]
      intro hx
      exact hbad (List.isPrefixOf_iff_prefix.mp hx)
    obtain ⟨m', hm'⟩ := Option.isSome_iff_exists.mp hpred
    exact ⟨m', by simp [extract_tarball, hm']⟩
  · intro writes hok w hw
    unfold extract_tarball at hok
    cases hfind : data.find? (fun m => !(memberPathOk target m.name)) with
    | some m => rw [hfind] at hok; exact absurd hok (by simp)
    | none =>
      rw [hfind] at hok
      have hwrites : writes = data.map fun m => (resolveUnder target m.name, m.content) := by
        cases hok; rfl
      subst hwrites
      obtain ⟨m, hm, rfl⟩ := List.mem_map.mp hw
      have hok' := List.find?_eq_none.mp hfind m hm
      simp only [memberPathOk, Bool.not_eq_true', Bool.not_eq_false] at hok'
      exact List.isPrefixOf_iff_prefix.mp hok'

/-- **C2** witness: a tarball with the single member `../evil` extracted
into `/home/user/snap` is rejected. -/
theorem extract_tarball_rejects_traversal_witness :
    ∃ m, extract_tarball [⟨["..", "evil"], [1]⟩] ["home", "user", "snap"]
      = Except.error m :=
  (extract_tarball_rejects_traversal [⟨["..", "evil"], [1]⟩] ["home", "user", "snap"]).1
    ⟨⟨["..", "evil"], [1]⟩, by decide, by decide⟩

/-! ## Audit log: `write_log` (src/ftl/log.py) and its call sites
(src/ftl/orchestrator.py)

JSON objects are modelled as association lists with string values (numeric
values such as `files_changed` are carried as strings, which is irrelevant
to the key structure). -/

/-- Python `d[k] = v`: replace in place if the key exists, else append. -/
def dictInsert {α β : Type} [DecidableEq α] (d : List (α × β)) (k : α) (v : β) :
    List (α × β) :=
  if d.any (fun kv => kv.1 = k) then
    d.map (fun kv => if kv.1 = k then (k, v) else kv)
  else d ++ [(k, v)]

/-- Python `d[k]` / `d.get(k)` on a dict with unique keys. -/
def dictGet {α β : Type} [DecidableEq α] (d : List (α × β)) (k : α) : Option β :=
  (d.find? (fun kv => kv.1 = k)).map (·.2)

/-- Embedding of `write_log(entry)`: set `entry["timestamp"]` to the current
time and append the entry as one JSON line.  The function has no trace-id
parameter and adds no trace-id field. -/
def write_log (entry : List (String × String)) (now : String) :
    List (String × String) :=
  dictInsert entry "timestamp" now

/-- The entry passed to `write_log` by `Session.start`
(src/ftl/orchestrator.py:278). -/
def session_start_entry (task snapshot project agent : String) :
    List (String × String) :=
  [("event", "session_start"), ("task", task), ("snapshot", snapshot),
   ("project", project), ("agent", agent)]

/-- The entry passed to `write_log` by `Session.merge` on approval
(src/ftl/orchestrator.py:365). -/
def merge_entry (task snapshot project filesChanged lintViolations : String) :
    List (String × String) :=
  [("event", "merge"), ("task", task), ("snapshot", snapshot),
   ("project", project), ("result", "merged"), ("files_changed", filesChanged),
   ("lint_violations", lintViolations)]

/-- The entry passed to `write_log` by `Session.merge` on rejection
(src/ftl/orchestrator.py:376). -/
def review_entry (task snapshot project : String) : List (String × String) :=
  [("event", "review"), ("task", task), ("snapshot", snapshot),
   ("project", project), ("result", "rejected")]

/-- The entry passed to `write_log` by `Session.reject`
(src/ftl/orchestrator.py:389). -/
def reject_entry (task snapshot project : String) : List (String × String) :=
  [("event", "reject"), ("task", task), ("snapshot", snapshot),
   ("project", project), ("result", "rejected")]

/-- **C3** (code bug): for each of the four events, the JSON line produced by
`write_log` carries a timestamp and the event name, but no trace-id key at
all — `def write_log(entry)` accepts no trace-id and never writes one, even
though every orchestrator call site passes `trace_id=self.trace_id` (which
the actual Python signature rejects with a `TypeError`). -/
theorem write_log_entries_lack_trace_id
    (task snapshot project agent filesChanged lintViolations now : String) :
    ∀ e ∈ [session_start_entry task snapshot project agent,
           merge_entry task snapshot project filesChanged lintViolations,
           review_entry task snapshot project,
           reject_entry task snapshot project],
      dictGet (write_log e now) "timestamp" = some now ∧
      dictGet (write_log e now) "event" = dictGet e "event" ∧
      ∀ kv ∈ write_log e now, kv.1 ≠ "trace_id" ∧ kv.1 ≠ "trace-id" := by
  intro e he
  simp only [List.mem_cons, List.not_mem_nil, or_false] at he
  rcases he with rfl | rfl | rfl | rfl
  all_goals
    refine ⟨by simp [write_log, dictInsert, dictGet, session_start_entry,
        merge_entry, review_entry, reject_entry],
      by simp [write_log, dictInsert, dictGet, session_start_entry,
        merge_entry, review_entry, reject_entry], ?_⟩
  all_goals
    rintro ⟨a, b⟩ hkv
    constructor
    · rintro rfl
      simp [write_log, dictInsert, session_start_entry, merge_entry,
        review_entry, reject_entry] at hkv
    · rintro rfl
      simp [write_log, dictInsert, session_start_entry, merge_entry,
        review_entry, reject_entry] at hkv

/-- **C3** witness: the conclusion at the concrete `session_start` entry. -/
theorem write_log_entries_lack_trace_id_witness :
    dictGet (write_log (session_start_entry "t" "s" "p" "a") "now") "timestamp"
        = some "now" ∧
    dictGet (write_log (session_start_entry "t" "s" "p" "a") "now") "event"
        = dictGet (session_start_entry "t" "s" "p" "a") "event" ∧
    ∀ kv ∈ write_log (session_start_entry "t" "s" "p" "a") "now",
      kv.1 ≠ "trace_id" ∧ kv.1 ≠ "trace-id" :=
  write_log_entries_lack_trace_id "t" "s" "p" "a" "f" "l" "now"
    (session_start_entry "t" "s" "p" "a") (List.mem_cons_self _ _)

/-! ## Sorting (Python `sorted`)

Python `sorted` is modelled by a stable insertion sort over a boolean
order.  Relative paths and ids are byte strings compared lexicographically
by code point, which is how Python compares the corresponding strings. -/

/-- Lexicographic order on byte strings (Python string `<=`). -/
def lexLe : List Nat → List Nat → Bool
  | [], _ => true
  | _ :: _, [] => false
  | a :: as, b :: bs => if a < b then true else if a = b then lexLe as bs else false

theorem lexLe_total : ∀ x y : List Nat, lexLe x y = true ∨ lexLe y x = true := by
  intro x
  induction x with
  | nil => intro y; left; rfl
  | cons a as ih =>
    intro y
    cases y with
    | nil => right; rfl
    | cons b bs =>
      rcases Nat.lt_trichotomy a b with h | h | h
      · left; simp [lexLe, h]
      · subst h
        rcases ih bs with h2 | h2
        · left; simp [lexLe, h2]
        · right; simp [lexLe, h2]
      · right; simp [lexLe, h]

theorem lexLe_trans : ∀ x y z : List Nat,
    lexLe x y = true → lexLe y z = true → lexLe x z = true := by
  intro x
  induction x with
  | nil => intro y z _ _; rfl
  | cons a as ih =>
    intro y z hxy hyz
    cases y with
    | nil => simp [lexLe] at hxy
    | cons b bs =>
      cases z with
      | nil => simp [lexLe] at hyz
      | cons c cs =>
        simp only [lexLe] at hxy hyz ⊢
        by_cases hab : a < b
        · by_cases hbc : b < c
          · simp [show a < c from Nat.lt_trans hab hbc]
          · by_cases hbc' : b = c
            · simp [show a < c from hbc' ▸ hab]
            · simp [hbc, hbc'] at hyz
        · by_cases hab' : a = b
          · subst hab'
            by_cases hbc : a < c
            · simp [hbc]
            · by_cases hbc' : a = c
              · subst hbc'
                simp only [hab, if_false, if_pos rfl] at hxy hyz ⊢
                exact ih bs cs hxy hyz
              · simp [hbc, hbc'] at hyz
          · simp [hab, hab'] at hxy

/-- Insertion step of Python's stable sort. -/
def insertLe {α : Type} (le : α → α → Bool) (x : α) : List α → List α
  | [] => [x]
  | y :: ys => if le x y then x :: y :: ys else y :: insertLe le x ys

/-- Stable insertion sort modelling Python `sorted`. -/
def sortLe {α : Type} (le : α → α → Bool) : List α → List α
  | [] => []
  | x :: xs => insertLe le x (sortLe le xs)

theorem mem_insertLe {α : Type} (le : α → α → Bool) (x : α) :
    ∀ (l : List α) (a : α), a ∈ insertLe le x l ↔ a = x ∨ a ∈ l := by
  intro l
  induction l with
  | nil => intro a; simp [insertLe]
  | cons y ys ih =>
    intro a
    simp only [insertLe]
    by_cases h : le x y = true
    · rw [if_pos h]
      simp only [List.mem_cons]
    · rw [if_neg h]
      simp only [List.mem_cons, ih a]
      tauto

theorem pairwise_insertLe {α : Type} (le : α → α → Bool)
    (htot : ∀ a b, le a b = true ∨ le b a = true)
    (htrans : ∀ a b c, le a b = true → le b c = true → le a c = true)
    (x : α) : ∀ (l : List α), l.Pairwise (fun a b => le a b = true) →
      (insertLe le x l).Pairwise (fun a b => le a b = true) := by
  intro l
  induction l with
  | nil => intro _; simp [insertLe]
  | cons y ys ih =>
    intro h
    rcases List.pairwise_cons.mp h with ⟨hy, hys⟩
    simp only [insertLe]
    by_cases hxy : le x y = true
    · rw [if_pos hxy]
      refine List.pairwise_cons.mpr ⟨?_, h⟩
      intro b hb
      rcases List.mem_cons.mp hb with rfl | hb'
      · exact hxy
      · exact htrans x y b hxy (hy b hb')
    · rw [if_neg hxy]
      refine List.pairwise_cons.mpr ⟨?_, ih hys⟩
      intro b hb
      rcases (mem_insertLe le x ys b).mp hb with hb1 | hb'
      · subst hb1
        rcases htot b y with h1 | h1
        · exact absurd h1 hxy
        · exact h1
      · exact hy b hb'

theorem pairwise_sortLe {α : Type} (le : α → α → Bool)
    (htot : ∀ a b, le a b = true ∨ le b a = true)
    (htrans : ∀ a b c, le a b = true → le b c = true → le a c = true) :
    ∀ (l : List α), (sortLe le l).Pairwise (fun a b => le a b = true) := by
  intro l
  induction l with
  | nil => simp [sortLe]
  | cons x xs ih => exact pairwise_insertLe le htot htrans x _ ih

/-! ## Diff engine (src/ftl/diff.py)

Files are byte strings; a tree is an association list from relative path
(byte string) to content bytes.  `read_text(errors="replace")` followed by
`splitlines` is modelled as splitting the bytes on the newline byte. -/

/-- Bytes of a string literal (ASCII constants from the source). -/
def bytesOf (s : String) : List Nat := s.data.map Char.toNat

/-- `DIFF_IGNORE` from src/ftl/diff.py. -/
def DIFF_IGNORE : List (List Nat) :=
  [bytesOf "__pycache__", bytesOf ".pytest_cache", bytesOf ".mypy_cache",
   bytesOf ".ruff_cache", bytesOf "node_modules", bytesOf "site-packages",
   bytesOf "venv", bytesOf ".venv"]

/-- `_DIFF_IGNORE_SUFFIXES` from src/ftl/diff.py. -/
def DIFF_IGNORE_SUFFIXES : List (List Nat) :=
  [bytesOf ".dist-info", bytesOf ".egg-info", bytesOf ".egg-link"]

/-- `BINARY_EXTENSIONS` from src/ftl/diff.py. -/
def BINARY_EXTENSIONS : List (List Nat) :=
  [bytesOf ".png", bytesOf ".jpg", bytesOf ".jpeg", bytesOf ".gif",
   bytesOf ".ico", bytesOf ".svg", bytesOf ".webp",
   bytesOf ".woff", bytesOf ".woff2", bytesOf ".ttf", bytesOf ".eot",
   bytesOf ".zip", bytesOf ".tar", bytesOf ".gz", bytesOf ".bz2",
   bytesOf ".pdf", bytesOf ".doc", bytesOf ".docx",
   bytesOf ".pyc", bytesOf ".pyo", bytesOf ".so", bytesOf ".dylib",
   bytesOf ".dll"]

/-- The components of a relative path (`Path.parts`): split on `'/'`. -/
def pathParts (rel : List Nat) : List (List Nat) := rel.splitOn 47

/-- `Path.name`: the last component. -/
def fileName (rel : List Nat) : List Nat := (pathParts rel).getLastD []

/-- ASCII lowercasing of one byte (`str.lower` on ASCII paths). -/
def lowerByte (c : Nat) : Nat := if 65 ≤ c ∧ c ≤ 90 then c + 32 else c

/-- `Path.suffix`: the final `"."`-extension of the file name, empty when
there is no dot or only a leading dot. -/
def pathSuffix (name : List Nat) : List Nat :=
  let afterDot := name.reverse.takeWhile (fun c => c ≠ 46)
  if afterDot.length + 1 ≤ name.length then
    if afterDot.length + 1 = name.length then []
    else name.drop (name.length - (afterDot.length + 1))
  else []

/-- Embedding of `_should_ignore_in_diff` (src/ftl/diff.py:34). -/
def should_ignore_in_diff (rel : List Nat) : Bool :=
  (pathParts rel).any (fun part =>
    DIFF_IGNORE.contains part ||
    DIFF_IGNORE_SUFFIXES.any (fun suf => suf.isSuffixOf part))

/-- Embedding of `_is_binary` (src/ftl/diff.py:17): binary extension, or a
NUL byte in the first 8192 content bytes. -/
def is_binary (rel content : List Nat) : Bool :=
  BINARY_EXTENSIONS.contains ((pathSuffix (fileName rel)).map lowerByte) ||
  (content.take 8192).contains 0

/-- Python `str.splitlines` on newline-separated text: split on the newline
byte, with no empty final piece for a trailing newline. -/
def splitlines (b : List Nat) : List (List Nat) :=
  if b = [] then []
  else
    let parts := b.splitOn 10
    if b.getLast? = some (10 : Nat) then parts.dropLast else parts

/-- One structured diff record (`{"path", "status", "lines"}`); lines are
`(tag, line)` pairs with tag `" "`, `"+"` or `"-"`. -/
structure DiffEntry where
  path : List Nat
  status : String
  lines : List (String × List Nat)
deriving DecidableEq

/-- Length of a longest common subsequence, used to model the alignment
chosen by `difflib.SequenceMatcher`.  The fuel is an upper bound on the
total length. -/
def lcsLen : Nat → List (List Nat) → List (List Nat) → Nat
  | _, [], _ => 0
  | _, _, [] => 0
  | 0, _, _ => 0
  | fuel + 1, o :: os, n :: ns =>
    if o = n then lcsLen fuel os ns + 1
    else max (lcsLen fuel os (n :: ns)) (lcsLen fuel (o :: os) ns)

/-- `difflib.SequenceMatcher(None, old, new).get_opcodes()` mapped to tagged
lines as in `compute_diff` ("equal" → `" "`, "delete" → `"-"`, "insert" →
`"+"`, "replace" → deletions then insertions), abstracted as an
LCS-optimal alignment. -/
def diffLinesGo : Nat → List (List Nat) → List (List Nat) →
    List (String × List Nat)
  | _, [], ns => ns.map (fun n => ("+", n))
  | _, os, [] => os.map (fun o => ("-", o))
  | 0, os, ns => os.map (fun o => ("-", o)) ++ ns.map (fun n => ("+", n))
  | fuel + 1, o :: os, n :: ns =>
    if o = n then (" ", o) :: diffLinesGo fuel os ns
    else if lcsLen (os.length + ns.length + 1) os (n :: ns) ≥
            lcsLen (os.length + ns.length + 1) (o :: os) ns then
      ("-", o) :: diffLinesGo fuel os (n :: ns)
    else
      ("+", n) :: diffLinesGo fuel (o :: os) ns

def diffLines (old new : List (List Nat)) : List (String × List Nat) :=
  diffLinesGo (old.length + new.length) old new

/-- The snapshot-side file set of `compute_diff` /
`compute_diff_from_overlay`: every path except `.ftl_meta` and ignored
paths. -/
def snapFilesOf (snap : List (List Nat × List Nat)) : List (List Nat) :=
  (snap.map (·.1)).filter
    (fun p => !(fileName p == bytesOf ".ftl_meta") && !(should_ignore_in_diff p))

/-- The workspace-side file set of `compute_diff`. -/
def workFilesOf (work : List (List Nat × List Nat)) : List (List Nat) :=
  (work.map (·.1)).filter (fun p => !(should_ignore_in_diff p))

/-- Body of the deleted-files loop of `compute_diff` (src/ftl/diff.py:62). -/
def deletedEntry (snap : List (List Nat × List Nat)) (rel : List Nat) : DiffEntry :=
  let content := (snap.lookup rel).getD []
  if is_binary rel content then
    ⟨rel, "deleted", [("-", bytesOf "[binary file]")]⟩
  else
    ⟨rel, "deleted", (splitlines content).map (fun l => ("-", l))⟩

/-- Body of the created-files loop of `compute_diff` (src/ftl/diff.py:73). -/
def createdEntry (work : List (List Nat × List Nat)) (rel : List Nat) : DiffEntry :=
  let content := (work.lookup rel).getD []
  if is_binary rel content then
    ⟨rel, "created", [("+", bytesOf "[binary file]")]⟩
  else
    ⟨rel, "created", (splitlines content).map (fun l => ("+", l))⟩

/-- Body of the common-files loop of `compute_diff` (src/ftl/diff.py:84):
`none` when the file is skipped (unchanged). -/
def modifiedEntry (snap work : List (List Nat × List Nat)) (rel : List Nat) :
    Option DiffEntry :=
  let oldC := (snap.lookup rel).getD []
  let newC := (work.lookup rel).getD []
  if is_binary rel oldC || is_binary rel newC then
    if oldC ≠ newC then
      some ⟨rel, "modified", [(" ", bytesOf "[binary file changed]")]⟩
    else none
  else
    let oldT := splitlines oldC
    let newT := splitlines newC
    if oldT = newT then none
    else some ⟨rel, "modified", diffLines oldT newT⟩

/-- Embedding of `compute_diff(snapshot_path, workspace_path)`
(src/ftl/diff.py:44): classify deleted / created / modified files,
each group sorted by path, and concatenate the groups in that order. -/
def compute_diff (snap work : List (List Nat × List Nat)) : List DiffEntry :=
  let snapPaths := snapFilesOf snap
  let workPaths := workFilesOf work
  (sortLe lexLe (snapPaths.filter (fun p => !(workPaths.contains p)))).map
      (deletedEntry snap) ++
    (sortLe lexLe (workPaths.filter (fun p => !(snapPaths.contains p)))).map
      (createdEntry work) ++
    (sortLe lexLe (snapPaths.filter (fun p => workPaths.contains p))).filterMap
      (modifiedEntry snap work)

/-- One record of `sandbox.get_diff()` output
(`{"path", "deleted", "content_b64"}`, content already base64-decoded). -/
structure OverlayChange where
  path : List Nat
  deleted : Bool
  content : List Nat
deriving DecidableEq

/-- Body of the overlay loop of `compute_diff_from_overlay`
(src/ftl/diff.py:144): one optional entry per overlay change; `none` when
the change is skipped.  The `_content_bytes` payload is not modelled (it
never affects entry order or status). -/
def overlayEntry (snap : List (List Nat × List Nat)) (ch : OverlayChange) :
    Option DiffEntry :=
  if should_ignore_in_diff ch.path then none
  else if ch.deleted then
    match snap.lookup ch.path with
    | none => none
    | some oldC =>
      if is_binary ch.path oldC then
        some ⟨ch.path, "deleted", [("-", bytesOf "[binary file]")]⟩
      else
        some ⟨ch.path, "deleted", (splitlines oldC).map (fun l => ("-", l))⟩
  else
    let status := if (snapFilesOf snap).contains ch.path then "modified" else "created"
    if BINARY_EXTENSIONS.contains ((pathSuffix (fileName ch.path)).map lowerByte) ||
       (ch.content.take 8192).contains 0 then
      if status = "created" then
        some ⟨ch.path, status, [("+", bytesOf "[binary file]")]⟩
      else
        some ⟨ch.path, status, [(" ", bytesOf "[binary file changed]")]⟩
    else
      let newT := splitlines ch.content
      if status = "created" then
        some ⟨ch.path, "created", newT.map (fun l => ("+", l))⟩
      else
        let oldC := (snap.lookup ch.path).getD []
        if is_binary ch.path oldC then
          some ⟨ch.path, "modified", [(" ", bytesOf "[binary file changed]")]⟩
        else if splitlines oldC = newT then none
        else some ⟨ch.path, "modified", diffLines (splitlines oldC) newT⟩

/-- Embedding of `compute_diff_from_overlay(overlay_changes, snapshot_path)`
(src/ftl/diff.py:122): build one entry per overlay change (skipping ignored
paths, vanished snapshot files and unchanged text), then sort all entries by
path. -/
def compute_diff_from_overlay (overlay : List OverlayChange)
    (snap : List (List Nat × List Nat)) : List DiffEntry :=
  sortLe (fun a b => lexLe a.path b.path) (overlay.filterMap (overlayEntry snap))

theorem deletedEntry_path (snap : List (List Nat × List Nat)) (rel : List Nat) :
    (deletedEntry snap rel).path = rel := by
  simp only [deletedEntry]
  split <;> rfl

theorem createdEntry_path (work : List (List Nat × List Nat)) (rel : List Nat) :
    (createdEntry work rel).path = rel := by
  simp only [createdEntry]
  split <;> rfl

theorem deletedEntry_status (snap : List (List Nat × List Nat)) (rel : List Nat) :
    (deletedEntry snap rel).status = "deleted" := by
  simp only [deletedEntry]
  split <;> rfl

theorem createdEntry_status (work : List (List Nat × List Nat)) (rel : List Nat) :
    (createdEntry work rel).status = "created" := by
  simp only [createdEntry]
  split <;> rfl

theorem modifiedEntry_path {snap work : List (List Nat × List Nat)}
    {rel : List Nat} {e : DiffEntry} (h : modifiedEntry snap work rel = some e) :
    e.path = rel := by
  simp only [modifiedEntry] at h
  split at h
  · split at h
    · injection h with h'
      subst h'
      rfl
    · simp at h
  · split at h
    · simp at h
    · injection h with h'
      subst h'
      rfl

theorem modifiedEntry_status {snap work : List (List Nat × List Nat)}
    {rel : List Nat} {e : DiffEntry} (h : modifiedEntry snap work rel = some e) :
    e.status = "modified" := by
  simp only [modifiedEntry] at h
  split at h
  · split at h
    · injection h with h'
      subst h'
      rfl
    · simp at h
  · split at h
    · simp at h
    · injection h with h'
      subst h'
      rfl

/-- **C4** (counterexample): `compute_diff` output is not sorted by path
across status groups: with a snapshot containing only `"z"` and a workspace
containing only `"a"`, the deleted entry for `"z"` precedes the created
entry for `"a"`. -/
theorem compute_diff_unsorted_counterexample :
    ¬ (compute_diff [([122], [120])] [([97], [121])]).Pairwise
        (fun a b => lexLe a.path b.path = true) := by
  intro h
  have he : compute_diff [([122], [120])] [([97], [121])] =
      [⟨[122], "deleted", [("-", [120])]⟩, ⟨[97], "created", [("+", [121])]⟩] := by rfl
  rw [he] at h
  rcases List.pairwise_cons.mp h with ⟨h1, -⟩
  have h2 := h1 ⟨[97], "created", [("+", [121])]⟩ (List.mem_cons_self _ _)
  exact absurd h2 (by decide)

/-- **C4** (amended): `compute_diff` returns the deleted, created and
modified entries as three groups concatenated in that order, each group
sorted by path (not a single global order); `compute_diff_from_overlay`
returns all entries sorted by path in a single ascending order. -/
theorem diff_entries_ordering (snap work : List (List Nat × List Nat))
    (overlay : List OverlayChange) :
    (∃ d c m : List DiffEntry,
      compute_diff snap work = d ++ c ++ m ∧
      (∀ e ∈ d, e.status = "deleted") ∧
      (∀ e ∈ c, e.status = "created") ∧
      (∀ e ∈ m, e.status = "modified") ∧
      d.Pairwise (fun a b => lexLe a.path b.path = true) ∧
      c.Pairwise (fun a b => lexLe a.path b.path = true) ∧
      m.Pairwise (fun a b => lexLe a.path b.path = true)) ∧
    (compute_diff_from_overlay overlay snap).Pairwise
      (fun a b => lexLe a.path b.path = true) := by
  constructor
  · refine ⟨_, _, _, rfl, ?_, ?_, ?_, ?_, ?_, ?_⟩
    · intro e he
      obtain ⟨rel, -, rfl⟩ := List.mem_map.mp he
      exact deletedEntry_status snap rel
    · intro e he
      obtain ⟨rel, -, rfl⟩ := List.mem_map.mp he
      exact createdEntry_status work rel
    · intro e he
      obtain ⟨rel, -, hsome⟩ := List.mem_filterMap.mp he
      exact modifiedEntry_status hsome
    · refine (pairwise_sortLe lexLe lexLe_total lexLe_trans _).map _ ?_
      intro a b hab
      rw [deletedEntry_path, deletedEntry_path]
      exact hab
    · refine (pairwise_sortLe lexLe lexLe_total lexLe_trans _).map _ ?_
      intro a b hab
      rw [createdEntry_path, createdEntry_path]
      exact hab
    · refine List.pairwise_filterMap.mpr ?_
      refine (pairwise_sortLe lexLe lexLe_total lexLe_trans _).imp ?_
      intro a b hab x hx y hy
      rw [modifiedEntry_path (Option.mem_def.mp hx),
        modifiedEntry_path (Option.mem_def.mp hy)]
      exact hab
  · exact pairwise_sortLe (fun a b : DiffEntry => lexLe a.path b.path)
      (fun a b => lexLe_total a.path b.path)
      (fun a b c => lexLe_trans a.path b.path c.path) _

/-! ## S3 key path encoding: `_encode_path` / `_decode_path`
(src/ftl/snapshot/s3.py:34)

URL-safe base64 over byte strings; `=` is byte 61. -/

/-- The URL-safe base64 alphabet: sextet value to byte
(`A–Z`, `a–z`, `0–9`, `-`, `_`). -/
def b64Char (v : Nat) : Nat :=
  if v < 26 then 65 + v
  else if v < 52 then 97 + (v - 26)
  else if v < 62 then 48 + (v - 52)
  else if v = 62 then 45
  else 95

/-- Inverse alphabet: byte to sextet value. -/
def b64Val (c : Nat) : Nat :=
  if 65 ≤ c ∧ c ≤ 90 then c - 65
  else if 97 ≤ c ∧ c ≤ 122 then c - 97 + 26
  else if 48 ≤ c ∧ c ≤ 57 then c - 48 + 52
  else if c = 45 then 62
  else if c = 95 then 63
  else 0

/-- `base64.urlsafe_b64encode`: three bytes to four characters, with `=`
padding on a final group of one or two bytes. -/
def b64encode : List Nat → List Nat
  | [] => []
  | [b1] => [b64Char (b1 / 4), b64Char (b1 % 4 * 16), 61, 61]
  | [b1, b2] =>
    [b64Char (b1 / 4), b64Char (b1 % 4 * 16 + b2 / 16), b64Char (b2 % 16 * 4), 61]
  | b1 :: b2 :: b3 :: rest =>
    b64Char (b1 / 4) :: b64Char (b1 % 4 * 16 + b2 / 16) ::
      b64Char (b2 % 16 * 4 + b3 / 64) :: b64Char (b3 % 64) :: b64encode rest

/-- `base64.urlsafe_b64decode` on correctly padded input: four characters to
three bytes, with `=` padding marking a short final group. -/
def b64decode : List Nat → List Nat
  | c1 :: c2 :: c3 :: c4 :: rest =>
    if c3 = 61 then [b64Val c1 * 4 + b64Val c2 / 16]
    else if c4 = 61 then
      [b64Val c1 * 4 + b64Val c2 / 16, b64Val c2 % 16 * 16 + b64Val c3 / 4]
    else
      (b64Val c1 * 4 + b64Val c2 / 16) ::
        (b64Val c2 % 16 * 16 + b64Val c3 / 4) ::
        (b64Val c3 % 4 * 64 + b64Val c4) :: b64decode rest
  | _ => []

/-- `str.rstrip("=")` on bytes. -/
def rstripEq (l : List Nat) : List Nat :=
  (l.reverse.dropWhile (fun c => c = 61)).reverse

/-- Embedding of `_encode_path`: unpadded URL-safe base64 of the path
bytes. -/
def encode_path (p : List Nat) : List Nat := rstripEq (b64encode p)

/-- Embedding of `_decode_path`: restore the padding to a multiple of four
and decode. -/
def decode_path (e : List Nat) : List Nat :=
  b64decode (e ++ List.replicate ((4 - e.length % 4) % 4) 61)

theorem b64Char_ne_eq (v : Nat) : b64Char v ≠ 61 := by
  simp only [b64Char]
  split_ifs <;> omega

theorem b64Val_b64Char : ∀ v < 64, b64Val (b64Char v) = v := by decide

/-- `rstrip` acts only on the tail: a prefix free of `=` passes through. -/
theorem rstripEq_append {xs ys : List Nat} (hxs : ∀ a ∈ xs, a ≠ 61) :
    rstripEq (xs ++ ys) = xs ++ rstripEq ys := by
  rcases eq_or_ne xs [] with rfl | hne
  · simp
  · unfold rstripEq
    rw [List.reverse_append, List.dropWhile_append]
    have hdw : xs.reverse.dropWhile (fun c => c = 61) = xs.reverse := by
      cases hxr : xs.reverse with
      | nil => rfl
      | cons a as =>
        have ha : a ∈ xs := by
          rw [← List.mem_reverse, hxr]
          exact List.mem_cons_self a as
        rw [List.dropWhile_cons]
        simp [hxs a ha]
    split
    · rename_i hemp
      rw [hdw]
      have hzero : (ys.reverse.dropWhile (fun c => c = 61)) = [] := by
        simpa using hemp
      rw [hzero]
      simp
    · rw [List.reverse_append, List.reverse_reverse]

theorem decode_encode_aux :
    ∀ (n : Nat) (p : List Nat), p.length ≤ n → (∀ b ∈ p, b < 256) →
      decode_path (encode_path p) = p := by
  intro n
  induction n with
  | zero =>
    intro p hp _
    have hnil : p = [] := List.eq_nil_of_length_eq_zero (Nat.le_zero.mp hp)
    subst hnil
    rfl
  | succ n ih =>
    intro p hp hb
    rcases p with _ | ⟨b1, _ | ⟨b2, _ | ⟨b3, rest⟩⟩⟩
    · rfl
    · -- one final byte: two characters survive the strip, two pads return
      have hb1 : b1 < 256 := hb b1 (List.mem_cons_self b1 [])
      have henc : encode_path [b1] = [b64Char (b1 / 4), b64Char (b1 % 4 * 16)] := by
        have heq : b64encode [b1] =
            [b64Char (b1 / 4), b64Char (b1 % 4 * 16)] ++ [61, 61] := rfl
        have hno : ∀ a ∈ [b64Char (b1 / 4), b64Char (b1 % 4 * 16)], a ≠ 61 := by
          intro a ha
          simp only [List.mem_cons, List.not_mem_nil, or_false] at ha
          rcases ha with rfl | rfl <;> exact b64Char_ne_eq _
        rw [encode_path, heq, rstripEq_append hno]
        rfl
      rw [henc]
      have hdec : decode_path [b64Char (b1 / 4), b64Char (b1 % 4 * 16)] =
          b64decode [b64Char (b1 / 4), b64Char (b1 % 4 * 16), 61, 61] := rfl
      have hstep : b64decode [b64Char (b1 / 4), b64Char (b1 % 4 * 16), 61, 61] =
          [b64Val (b64Char (b1 / 4)) * 4 + b64Val (b64Char (b1 % 4 * 16)) / 16] := by
        simp [b64decode]
      rw [hdec, hstep, b64Val_b64Char _ (by omega), b64Val_b64Char _ (by omega)]
      simp only [List.cons.injEq, and_true]
      omega
    · -- two final bytes: three characters survive the strip, one pad returns
      have hb1 : b1 < 256 := hb b1 (by simp)
      have hb2 : b2 < 256 := hb b2 (by simp)
      have henc : encode_path [b1, b2] =
          [b64Char (b1 / 4), b64Char (b1 % 4 * 16 + b2 / 16), b64Char (b2 % 16 * 4)] := by
        have heq : b64encode [b1, b2] =
            [b64Char (b1 / 4), b64Char (b1 % 4 * 16 + b2 / 16),
              b64Char (b2 % 16 * 4)] ++ [61] := rfl
        have hno : ∀ a ∈ [b64Char (b1 / 4), b64Char (b1 % 4 * 16 + b2 / 16),
            b64Char (b2 % 16 * 4)], a ≠ 61 := by
          intro a ha
          simp only [List.mem_cons, List.not_mem_nil, or_false] at ha
          rcases ha with rfl | rfl | rfl <;> exact b64Char_ne_eq _
        rw [encode_path, heq, rstripEq_append hno]
        rfl
      rw [henc]
      have hdec : decode_path [b64Char (b1 / 4), b64Char (b1 % 4 * 16 + b2 / 16),
          b64Char (b2 % 16 * 4)] =
          b64decode [b64Char (b1 / 4), b64Char (b1 % 4 * 16 + b2 / 16),
            b64Char (b2 % 16 * 4), 61] := rfl
      have hstep : b64decode [b64Char (b1 / 4), b64Char (b1 % 4 * 16 + b2 / 16),
          b64Char (b2 % 16 * 4), 61] =
          [b64Val (b64Char (b1 / 4)) * 4 + b64Val (b64Char (b1 % 4 * 16 + b2 / 16)) / 16,
           b64Val (b64Char (b1 % 4 * 16 + b2 / 16)) % 16 * 16 +
             b64Val (b64Char (b2 % 16 * 4)) / 4] := by
        simp [b64decode, b64Char_ne_eq]
      rw [hdec, hstep, b64Val_b64Char _ (by omega), b64Val_b64Char _ (by omega),
        b64Val_b64Char _ (by omega)]
      simp only [List.cons.injEq, and_true]
      omega
    · -- a full group of three bytes followed by the remainder
      have hb1 : b1 < 256 := hb b1 (by simp)
      have hb2 : b2 < 256 := hb b2 (by simp)
      have hb3 : b3 < 256 := hb b3 (by simp)
      have hrest : ∀ b ∈ rest, b < 256 := fun b hbm => hb b (by simp [hbm])
      have hlen : rest.length ≤ n := by
        simp only [List.length_cons] at hp
        omega
      have ihr := ih rest hlen hrest
      have henc : encode_path (b1 :: b2 :: b3 :: rest) =
          b64Char (b1 / 4) :: b64Char (b1 % 4 * 16 + b2 / 16) ::
          b64Char (b2 % 16 * 4 + b3 / 64) :: b64Char (b3 % 64) ::
          encode_path rest := by
        have heq : b64encode (b1 :: b2 :: b3 :: rest) =
            [b64Char (b1 / 4), b64Char (b1 % 4 * 16 + b2 / 16),
              b64Char (b2 % 16 * 4 + b3 / 64), b64Char (b3 % 64)] ++
              b64encode rest := rfl
        have hno : ∀ a ∈ [b64Char (b1 / 4), b64Char (b1 % 4 * 16 + b2 / 16),
            b64Char (b2 % 16 * 4 + b3 / 64), b64Char (b3 % 64)], a ≠ 61 := by
          intro a ha
          simp only [List.mem_cons, List.not_mem_nil, or_false] at ha
          rcases ha with rfl | rfl | rfl | rfl <;> exact b64Char_ne_eq _
        rw [encode_path, heq, rstripEq_append hno]
        rfl
      rw [henc]
      have hpadeq : (4 - (b64Char (b1 / 4) :: b64Char (b1 % 4 * 16 + b2 / 16) ::
          b64Char (b2 % 16 * 4 + b3 / 64) :: b64Char (b3 % 64) ::
          encode_path rest).length % 4) % 4 =
          (4 - (encode_path rest).length % 4) % 4 := by
        simp only [List.length_cons]
        omega
      have hdec : decode_path (b64Char (b1 / 4) :: b64Char (b1 % 4 * 16 + b2 / 16) ::
          b64Char (b2 % 16 * 4 + b3 / 64) :: b64Char (b3 % 64) :: encode_path rest) =
          b64decode (b64Char (b1 / 4) :: b64Char (b1 % 4 * 16 + b2 / 16) ::
            b64Char (b2 % 16 * 4 + b3 / 64) :: b64Char (b3 % 64) ::
            (encode_path rest ++
              List.replicate ((4 - (encode_path rest).length % 4) % 4) 61)) := by
        rw [decode_path, hpadeq]
        rfl
      have hstep : b64decode (b64Char (b1 / 4) :: b64Char (b1 % 4 * 16 + b2 / 16) ::
          b64Char (b2 % 16 * 4 + b3 / 64) :: b64Char (b3 % 64) ::
          (encode_path rest ++
            List.replicate ((4 - (encode_path rest).length % 4) % 4) 61)) =
          (b64Val (b64Char (b1 / 4)) * 4 +
              b64Val (b64Char (b1 % 4 * 16 + b2 / 16)) / 16) ::
            (b64Val (b64Char (b1 % 4 * 16 + b2 / 16)) % 16 * 16 +
              b64Val (b64Char (b2 % 16 * 4 + b3 / 64)) / 4) ::
            (b64Val (b64Char (b2 % 16 * 4 + b3 / 64)) % 4 * 64 +
              b64Val (b64Char (b3 % 64))) ::
            b64decode (encode_path rest ++
              List.replicate ((4 - (encode_path rest).length % 4) % 4) 61) := by
        simp [b64decode, b64Char_ne_eq]
      have htail : b64decode (encode_path rest ++
          List.replicate ((4 - (encode_path rest).length % 4) % 4) 61) =
          decode_path (encode_path rest) := rfl
      rw [hdec, hstep, htail, ihr]
      rw [b64Val_b64Char _ (by omega), b64Val_b64Char _ (by omega),
        b64Val_b64Char _ (by omega), b64Val_b64Char _ (by omega)]
      simp only [List.cons.injEq, and_true]
      refine ⟨by omega, by omega, by omega⟩

/-- **C10**: decoding the URL-safe base64 encoding used in S3 key names is a
round trip: `_decode_path (_encode_path p) = p` for every byte string `p`
(UTF-8 bytes of the project path), including when the unpadded encoded
length is not a multiple of four. -/
theorem decode_path_encode_path (p : List Nat) (hb : ∀ b ∈ p, b < 256) :
    decode_path (encode_path p) = p :=
  decode_encode_aux p.length p le_rfl hb

/-- **C10** witness: the round trip on the two-byte path `"/p"`
(`[47, 112]`), whose unpadded encoding `"L3A"` has length 3. -/
theorem decode_path_encode_path_witness : decode_path (encode_path [47, 112]) = [47, 112] :=
  decode_path_encode_path [47, 112] (by decide)

/-! ## Snapshot listing: `LocalSnapshotStore.list` (src/ftl/snapshot/local.py:87)
and `S3SnapshotStore.list` (src/ftl/snapshot/s3.py:134)

The local store state is the directory listing: `(entry_name, meta)` pairs
where `meta` is the `.ftl_meta` content, or `none` when the file is
missing.  The S3 store state is the list of object keys in the order the
`list_objects_v2` paginator yields them.  `Path(project_path).resolve()` is
modelled as the identity on the already-absolute filter path. -/

/-- `Path(key).stem`: the final path component without its last extension. -/
def keyStem (key : List Nat) : List Nat :=
  let name := (key.splitOn 47).getLastD []
  name.take (name.length - (pathSuffix name).length)

/-- The `.tar` strip of `_parse_key` (double `.tar.gz` extension). -/
def stripTar (stem : List Nat) : List Nat :=
  if (bytesOf ".tar").isSuffixOf stem then stem.take (stem.length - 4) else stem

/-- Python `stem.split("__", 1)` when `"__" in stem`: split at the first
occurrence of the double underscore; `none` when there is none. -/
def splitDunder : List Nat → Option (List Nat × List Nat)
  | 95 :: 95 :: rest => some ([], rest)
  | c :: rest => (splitDunder rest).map (fun pq => (c :: pq.1, pq.2))
  | [] => none

/-- Embedding of `S3SnapshotStore._parse_key` for new-format keys: the stem
before `"__"` is the snapshot id, the part after it the base64-encoded
project path.  The backwards-compat `head_object` fallback for keys without
`"__"` is modelled as a parse failure (no metadata service is modelled). -/
def parse_key (key : List Nat) : Option (List Nat × List Nat) :=
  match splitDunder (stripTar (keyStem key)) with
  | some sp => some (sp.1, decode_path sp.2)
  | none => none

/-- Loop body of `S3SnapshotStore.list`: parse the key, apply the optional
project filter. -/
def s3ListEntry (projectFilter : Option (List Nat)) (key : List Nat) :
    Option (List Nat × List Nat) :=
  match parse_key key with
  | none => none
  | some sp =>
    match projectFilter with
    | some pf => if pf ≠ sp.2 then none else some sp
    | none => some sp

/-- Embedding of `S3SnapshotStore.list`: iterate the bucket keys in the
order S3 returns them and append matching records — no sorting. -/
def s3_list (keys : List (List Nat)) (projectFilter : Option (List Nat)) :
    List (List Nat × List Nat) :=
  keys.filterMap (s3ListEntry projectFilter)

/-- Loop body of `LocalSnapshotStore.list`: skip entries whose `.ftl_meta`
is missing, apply the optional project filter. -/
def localListEntry (projectFilter : Option (List Nat))
    (e : List Nat × Option (List Nat)) : Option (List Nat × List Nat) :=
  match e.2 with
  | none => none
  | some proj =>
    match projectFilter with
    | some pf => if pf ≠ proj then none else some (e.1, proj)
    | none => some (e.1, proj)

/-- Embedding of `LocalSnapshotStore.list`: iterate
`sorted(SNAPSHOT_DIR.iterdir())` — directory entries sorted by name, i.e.
by snapshot id — and append matching records. -/
def local_list (entries : List (List Nat × Option (List Nat)))
    (projectFilter : Option (List Nat)) : List (List Nat × List Nat) :=
  (sortLe (fun a b => lexLe a.1 b.1) entries).filterMap (localListEntry projectFilter)

theorem localListEntry_fst {pf : Option (List Nat)}
    {e : List Nat × Option (List Nat)} {r : List Nat × List Nat}
    (h : localListEntry pf e = some r) : r.1 = e.1 := by
  simp only [localListEntry] at h
  split at h
  · simp at h
  · split at h
    · split at h
      · simp at h
      · injection h with h'
        subst h'
        rfl
    · injection h with h'
      subst h'
      rfl

theorem localListEntry_filter {p : List Nat}
    {e : List Nat × Option (List Nat)} {r : List Nat × List Nat}
    (h : localListEntry (some p) e = some r) : r.2 = p := by
  simp only [localListEntry] at h
  split at h
  · simp at h
  · rename_i proj heq
    split at h
    · simp at h
    · rename_i hne
      injection h with h'
      subst h'
      simp only [ne_eq, Decidable.not_not] at hne
      exact hne.symm

theorem s3ListEntry_filter {p : List Nat} {key : List Nat}
    {r : List Nat × List Nat} (h : s3ListEntry (some p) key = some r) :
    r.2 = p := by
  simp only [s3ListEntry] at h
  split at h
  · simp at h
  · split at h
    · simp at h
    · rename_i hne
      injection h with h'
      subst h'
      simp only [ne_eq, Decidable.not_not] at hne
      exact hne.symm

/-- **C5** (counterexample): the S3 variant does not sort by id.  With the
bucket holding (in S3's ascending key order) a snapshot `zz` of project
`/p` and a snapshot `aa` of project `/q` — whose md5-derived key prefixes
order the other way — `list` returns id `zz` before id `aa`. -/
theorem s3_list_unsorted_counterexample :
    ¬ (s3_list [bytesOf "snapshots/aa/zz__L3A.tar.gz",
                bytesOf "snapshots/bb/aa__L3E.tar.gz"] none).Pairwise
        (fun a b => lexLe a.1 b.1 = true) := by
  intro h
  have he : s3_list [bytesOf "snapshots/aa/zz__L3A.tar.gz",
      bytesOf "snapshots/bb/aa__L3E.tar.gz"] none =
      [(bytesOf "zz", bytesOf "/p"), (bytesOf "aa", bytesOf "/q")] := by rfl
  rw [he] at h
  rcases List.pairwise_cons.mp h with ⟨h1, -⟩
  have h2 := h1 _ (List.mem_cons_self _ _)
  exact absurd h2 (by decide)

theorem mem_sortLe {α : Type} (le : α → α → Bool) :
    ∀ (l : List α) (a : α), a ∈ sortLe le l ↔ a ∈ l := by
  intro l
  induction l with
  | nil => intro a; simp [sortLe]
  | cons x xs ih =>
    intro a
    simp only [sortLe]
    rw [mem_insertLe le x (sortLe le xs) a, ih a, List.mem_cons]

/-- Full characterization of one `LocalSnapshotStore.list` iteration: a
record is produced exactly for an entry whose `.ftl_meta` exists and
matches the filter. -/
theorem localListEntry_eq_some_iff {pf : Option (List Nat)}
    {e : List Nat × Option (List Nat)} {r : List Nat × List Nat} :
    localListEntry pf e = some r ↔
      e.2 = some r.2 ∧ r.1 = e.1 ∧ (pf = none ∨ pf = some r.2) := by
  rcases e with ⟨sid, meta⟩
  rcases r with ⟨rid, rproj⟩
  cases meta with
  | none => simp [localListEntry]
  | some proj =>
    cases pf with
    | none =>
      constructor
      · intro h
        simp only [localListEntry] at h
        injection h with h'
        cases h'
        exact ⟨rfl, rfl, Or.inl rfl⟩
      · rintro ⟨h1, h2, -⟩
        injection h1 with h1'
        subst h1'
        subst h2
        rfl
    | some q =>
      by_cases hq : q = proj
      · subst hq
        constructor
        · intro h
          simp only [localListEntry] at h
          rw [if_neg (fun hc => hc rfl)] at h
          injection h with h'
          cases h'
          exact ⟨rfl, rfl, Or.inr rfl⟩
        · rintro ⟨h1, h2, -⟩
          injection h1 with h1'
          subst h1'
          subst h2
          simp [localListEntry]
      · constructor
        · intro h
          simp [localListEntry, hq] at h
        · rintro ⟨h1, -, h3⟩
          injection h1 with h1'
          rcases h3 with h3 | h3
          · exact Option.noConfusion h3
          · injection h3 with h3'
            exact absurd (by rw [h3', ← h1']) hq

/-- Full characterization of one `S3SnapshotStore.list` iteration: a record
is produced exactly for a key that parses and matches the filter. -/
theorem s3ListEntry_eq_some_iff {pf : Option (List Nat)} {key : List Nat}
    {r : List Nat × List Nat} :
    s3ListEntry pf key = some r ↔
      parse_key key = some r ∧ (pf = none ∨ pf = some r.2) := by
  cases hp : parse_key key with
  | none => simp [s3ListEntry, hp]
  | some sp =>
    cases pf with
    | none =>
      constructor
      · intro h
        simp only [s3ListEntry, hp] at h
        exact ⟨h, Or.inl rfl⟩
      · rintro ⟨h1, -⟩
        simp only [s3ListEntry, hp]
        exact h1
    | some q =>
      by_cases hq : q = sp.2
      · subst hq
        constructor
        · intro h
          simp only [s3ListEntry, hp] at h
          rw [if_neg (fun hc => hc rfl)] at h
          injection h with h'
          subst h'
          exact ⟨rfl, Or.inr rfl⟩
        · rintro ⟨h1, -⟩
          injection h1 with h1'
          subst h1'
          simp only [s3ListEntry, hp]
          rw [if_neg (fun hc => hc rfl)]
      · constructor
        · intro h
          simp [s3ListEntry, hp, hq] at h
        · rintro ⟨h1, h2 | h2⟩
          · exact Option.noConfusion h2
          · injection h1 with h1'
            injection h2 with h2'
            exact absurd (by rw [h2', ← h1']) hq

/-- **C5** (amended): the local variant returns the `{id, project}` records
of exactly the directory entries whose `.ftl_meta` exists and matches the
filter (or all such entries when no filter is given) — missing meta skipped
silently — sorted by id; the S3 variant returns the records of exactly the
parseable bucket keys matching the filter, appended in bucket key order
(the order the paginator yields the keys) with no sorting, which need not
be sorted by id. -/
theorem snapshot_list_sorted (entries : List (List Nat × Option (List Nat)))
    (keys : List (List Nat)) (pf : Option (List Nat)) :
    (local_list entries pf).Pairwise (fun a b => lexLe a.1 b.1 = true) ∧
    (∀ sid proj, (sid, proj) ∈ local_list entries pf ↔
      ((sid, some proj) ∈ entries ∧ (pf = none ∨ pf = some proj))) ∧
    (s3_list [] pf = [] ∧
      ∀ (key : List Nat) (rest : List (List Nat)),
        s3_list (key :: rest) pf =
          match s3ListEntry pf key with
          | some r => r :: s3_list rest pf
          | none => s3_list rest pf) ∧
    (∀ r, r ∈ s3_list keys pf ↔
      ∃ key ∈ keys, parse_key key = some r ∧ (pf = none ∨ pf = some r.2)) := by
  refine ⟨?_, ?_, ⟨rfl, ?_⟩, ?_⟩
  · refine List.pairwise_filterMap.mpr ?_
    refine (pairwise_sortLe (fun a b => lexLe a.1 b.1)
      (fun a b => lexLe_total a.1 b.1)
      (fun a b c => lexLe_trans a.1 b.1 c.1) entries).imp ?_
    intro a b hab x hx y hy
    rw [localListEntry_fst (Option.mem_def.mp hx),
      localListEntry_fst (Option.mem_def.mp hy)]
    exact hab
  · intro sid proj
    constructor
    · intro h
      obtain ⟨e, hmem, hsome⟩ := List.mem_filterMap.mp h
      obtain ⟨hmeta, hid, hfil⟩ := localListEntry_eq_some_iff.mp hsome
      have he : e = (sid, some proj) := by
        rcases e with ⟨a, b⟩
        rw [Prod.mk.injEq]
        exact ⟨hid.symm, hmeta⟩
      rw [he] at hmem
      exact ⟨(mem_sortLe _ entries _).mp hmem, hfil⟩
    · rintro ⟨hmem, hfil⟩
      refine List.mem_filterMap.mpr
        ⟨(sid, some proj), (mem_sortLe _ entries _).mpr hmem, ?_⟩
      exact localListEntry_eq_some_iff.mpr ⟨rfl, rfl, hfil⟩
  · intro key rest
    cases h : s3ListEntry pf key <;>
      simp [s3_list, List.filterMap_cons, h]
  · intro r
    constructor
    · intro h
      obtain ⟨key, hk, hsome⟩ := List.mem_filterMap.mp h
      exact ⟨key, hk, s3ListEntry_eq_some_iff.mp hsome⟩
    · rintro ⟨key, hk, hparse, hfil⟩
      exact List.mem_filterMap.mpr
        ⟨key, hk, s3ListEntry_eq_some_iff.mpr ⟨hparse, hfil⟩⟩

/-! ## Sandbox lifecycle: `DockerSandbox.boot` (src/ftl/sandbox/docker.py:133)

State: the persisted container file for the project (`none` when absent,
`some s` its stripped text) and the in-process standby id
(`DockerSandbox._standby_id`).  `docker inspect` liveness is an oracle
`alive`.  The advisory file lock serialises the disk lookup but does not
change its sequential semantics.  Python truthiness of the stored id is the
`≠ []` check. -/

structure SandboxState where
  record : Option (List Nat)
  standby : Option (List Nat)
deriving DecidableEq

structure BootResult where
  fresh : Bool
  containerId : List Nat
  state : SandboxState
deriving DecidableEq

/-- Embedding of the lookup-and-claim sequence of `DockerSandbox.boot`:
step 1 claims a live on-disk record (unlinking the file whether live or
stale), step 2 claims a live in-process standby (clearing it only when
claimed), step 3 otherwise creates a fresh container (`newId`);
`fresh = (no existing container was claimed)`, and the chosen id is
persisted back to the record file. -/
def boot (alive : List Nat → Bool) (newId : List Nat) (hasProject : Bool)
    (s : SandboxState) : BootResult :=
  let diskClaim : Option (List Nat) :=
    if hasProject then
      match s.record with
      | some stored => if stored ≠ [] ∧ alive stored = true then some stored else none
      | none => none
    else none
  let record1 : Option (List Nat) := if hasProject then none else s.record
  let standbyClaim : Option (List Nat) :=
    if diskClaim.isNone then
      match s.standby with
      | some sid => if sid ≠ [] ∧ alive sid = true then some sid else none
      | none => none
    else none
  let existing : Option (List Nat) := if diskClaim.isSome then diskClaim else standbyClaim
  let standby1 : Option (List Nat) := if standbyClaim.isSome then none else s.standby
  let cid := existing.getD newId
  let record2 : Option (List Nat) := if hasProject then some cid else record1
  ⟨existing.isNone, cid, ⟨record2, standby1⟩⟩

theorem boot_fresh_iff (alive : List Nat → Bool) (nid : List Nat) (s : SandboxState) :
    (boot alive nid true s).fresh = true ↔
      ¬ (∃ c, s.record = some c ∧ c ≠ [] ∧ alive c = true) ∧
      ¬ (∃ c, s.standby = some c ∧ c ≠ [] ∧ alive c = true) := by
  cases hr : s.record with
  | none =>
    cases hst : s.standby with
    | none => simp [boot, hr, hst]
    | some sid =>
      by_cases hc : sid ≠ [] ∧ alive sid = true
      · simp [boot, hr, hst, hc]
      · simp only [boot, hr, hst, if_neg hc]
        simp [hc]
  | some stored =>
    by_cases hc : stored ≠ [] ∧ alive stored = true
    · simp [boot, hr, hc]
    · cases hst : s.standby with
      | none => simp [boot, hr, hst, hc]
      | some sid =>
        by_cases hc2 : sid ≠ [] ∧ alive sid = true
        · simp [boot, hr, hst, hc, hc2]
        · simp [boot, hr, hst, hc, hc2]

/-- **C6**: starting from no container record (and no standby), two
sequential boots with the same project produce `fresh = true` on the first
call and `fresh = false` on the second (the first container still running);
and in general `fresh = true` exactly when neither a live on-disk record
nor a live in-process standby was claimed. -/
theorem boot_fresh_flag (alive : List Nat → Bool) (id1 id2 : List Nat)
    (s : SandboxState) (hrec : s.record = none) (hstd : s.standby = none)
    (halive : alive id1 = true) (hne : id1 ≠ []) :
    ((boot alive id1 true s).fresh = true ∧
     (boot alive id2 true (boot alive id1 true s).state).fresh = false) ∧
    ∀ (s2 : SandboxState) (nid : List Nat),
      (boot alive nid true s2).fresh = true ↔
        ¬ (∃ c, s2.record = some c ∧ c ≠ [] ∧ alive c = true) ∧
        ¬ (∃ c, s2.standby = some c ∧ c ≠ [] ∧ alive c = true) := by
  refine ⟨⟨?_, ?_⟩, fun s2 nid => boot_fresh_iff alive nid s2⟩
  · rw [boot_fresh_iff]
    simp [hrec, hstd]
  · have hstate : (boot alive id1 true s).state = ⟨some id1, none⟩ := by
      simp [boot, hrec, hstd]
    rw [hstate]
    simp [boot, hne, halive]

/-- **C6** witness: two boots from the empty state with an always-alive
container oracle. -/
theorem boot_fresh_flag_witness :
    (boot (fun _ => true) [99] true ⟨none, none⟩).fresh = true ∧
    (boot (fun _ => true) [100] true
      (boot (fun _ => true) [99] true ⟨none, none⟩).state).fresh = false :=
  (boot_fresh_flag (fun _ => true) [99] [100] ⟨none, none⟩ rfl rfl rfl
    (by decide)).1

/-! ## Sandbox exec timeout: `DockerSandbox.exec`
(src/ftl/sandbox/docker.py:225)

The underlying `docker exec` subprocess is an oracle: its wall-clock
duration, exit code and outputs. -/

structure ProcBehavior where
  duration : Nat
  code : Int
  out : String
  err : String

/-- `subprocess.run(..., timeout=timeout)`: `none` models the
`TimeoutExpired` exception raised when the wall-clock duration exceeds the
timeout. -/
def subprocessRun (timeout : Nat) (p : ProcBehavior) :
    Option (Int × String × String) :=
  if p.duration > timeout then none else some (p.code, p.out, p.err)

/-- Embedding of `DockerSandbox.exec`: on `TimeoutExpired` return
`(124, "", f"Command timed out after {timeout}s")`; otherwise the
subprocess result. -/
def dockerExec (timeout : Nat) (p : ProcBehavior) : Int × String × String :=
  match subprocessRun timeout p with
  | none => (124, "", "Command timed out after " ++ toString timeout ++ "s")
  | some r => r

/-- **C7**: whenever the command's wall-clock time exceeds the timeout `T`,
`exec` returns exactly `(124, "", "Command timed out after Ts")`. -/
theorem exec_timeout_tuple (T : Nat) (p : ProcBehavior) (h : p.duration > T) :
    dockerExec T p = (124, "", "Command timed out after " ++ toString T ++ "s") := by
  simp [dockerExec, subprocessRun, h]

/-- **C7** witness: a 6-second command under a 5-second timeout. -/
theorem exec_timeout_tuple_witness :
    dockerExec 5 ⟨6, 0, "ignored", "ignored"⟩ = (124, "", "Command timed out after 5s") :=
  exec_timeout_tuple 5 ⟨6, 0, "ignored", "ignored"⟩ (by decide)

/-! ## Shadow credentials: `generate_shadow_key` / `build_shadow_map`
(src/ftl/credentials.py)

Names and values are byte strings.  `secrets.token_hex(8)` is a randomness
oracle `tok : Nat → List Nat` giving the token minted for the i-th loaded
key; `str.lower` is ASCII lowercasing (environment variable names are
ASCII). -/

/-- `SHADOW_PREFIX = "ftl_shadow_"`. -/
def SHADOW_PREFIX : List Nat := bytesOf "ftl_shadow_"

/-- Embedding of `generate_shadow_key(name)` at a given random token:
`f"{SHADOW_PREFIX}{name.lower()}_{token}"`. -/
def generate_shadow_key (name token : List Nat) : List Nat :=
  SHADOW_PREFIX ++ name.map lowerByte ++ [95] ++ token

/-- A lowercase hexadecimal digit byte — the output alphabet of
`secrets.token_hex`. -/
def isHexDigit (c : Nat) : Bool :=
  (48 ≤ c && c ≤ 57) || (97 ≤ c && c ≤ 102)

/-- One iteration of the `build_shadow_map` loop: mint the placeholder and
assign `shadow_env[name]` and `swap_table[shadow_value]`. -/
def shadowStep (tok : Nat → List Nat)
    (acc : List (List Nat × List Nat) × List (List Nat × List Nat))
    (ia : Nat × (List Nat × List Nat)) :
    List (List Nat × List Nat) × List (List Nat × List Nat) :=
  (dictInsert acc.1 ia.2.1 (generate_shadow_key ia.2.1 (tok ia.1)),
   dictInsert acc.2 (generate_shadow_key ia.2.1 (tok ia.1)) ia.2.2)

/-- Embedding of `build_shadow_map`: iterate the loaded `(name, real)`
pairs in dict order, minting the i-th token for the i-th pair, building
`shadow_env` and `swap_table` together. -/
def build_shadow_map (real_keys : List (List Nat × List Nat))
    (tok : Nat → List Nat) :
    List (List Nat × List Nat) × List (List Nat × List Nat) :=
  real_keys.enum.foldl (shadowStep tok) ([], [])

/-! ### Dictionary lemmas -/

theorem dictInsert_cons_ne {α β : Type} [DecidableEq α] (kv : α × β)
    (d : List (α × β)) (k : α) (v : β) (h : kv.1 ≠ k) :
    dictInsert (kv :: d) k v = kv :: dictInsert d k v := by
  simp only [dictInsert]
  rw [show ((kv :: d).any fun x => x.1 = k) = (d.any fun x => x.1 = k) by simp [h]]
  by_cases h2 : (d.any fun x => x.1 = k) = true
  · rw [if_pos h2, if_pos h2, List.map_cons, if_neg h]
  · rw [if_neg h2, if_neg h2, List.cons_append]

theorem dictGet_cons_ne {α β : Type} [DecidableEq α] (kv : α × β)
    (d : List (α × β)) (k : α) (h : kv.1 ≠ k) :
    dictGet (kv :: d) k = dictGet d k := by
  simp [dictGet, List.find?_cons, h]

theorem dictGet_insert_self {α β : Type} [DecidableEq α] (d : List (α × β))
    (k : α) (v : β) : dictGet (dictInsert d k v) k = some v := by
  induction d with
  | nil => simp [dictInsert, dictGet]
  | cons kv d ih =>
    by_cases h : kv.1 = k
    · have hany : ((kv :: d).any fun x => x.1 = k) = true := by simp [h]
      simp only [dictInsert, hany, if_true, List.map_cons, if_pos h]
      simp [dictGet, List.find?_cons]
    · rw [dictInsert_cons_ne kv d k v h, dictGet_cons_ne _ _ _ h]
      exact ih

theorem find?_map_insert {α β : Type} [DecidableEq α] (d : List (α × β))
    (k k2 : α) (v : β) (h : k2 ≠ k) :
    (d.map (fun kv => if kv.1 = k then (k, v) else kv)).find?
        (fun kv => kv.1 = k2) = d.find? (fun kv => kv.1 = k2) := by
  induction d with
  | nil => rfl
  | cons kv d ih =>
    by_cases hk : kv.1 = k
    · have hne1 : ¬ (k = k2) := fun hc => h hc.symm
      have hk2 : ¬ (kv.1 = k2) := by rw [hk]; exact hne1
      simp only [List.map_cons, if_pos hk, List.find?_cons, decide_eq_false hne1,
        decide_eq_false hk2]
      exact ih
    · simp only [List.map_cons, if_neg hk, List.find?_cons]
      by_cases hk2 : kv.1 = k2
      · simp [hk2]
      · simp only [decide_eq_false hk2]
        exact ih

theorem dictGet_insert_ne {α β : Type} [DecidableEq α] (d : List (α × β))
    (k k2 : α) (v : β) (h : k2 ≠ k) :
    dictGet (dictInsert d k v) k2 = dictGet d k2 := by
  simp only [dictInsert]
  by_cases hany : (d.any fun x => x.1 = k) = true
  · rw [if_pos hany]
    simp only [dictGet]
    rw [find?_map_insert d k k2 v h]
  · rw [if_neg hany]
    simp only [dictGet, List.find?_append]
    have hne1 : ¬ (k = k2) := fun hc => h hc.symm
    have hnone : ([(k, v)].find? fun kv => kv.1 = k2) = none := by
      simp only [List.find?_cons, decide_eq_false hne1]
      rfl
    rw [hnone]
    simp

/-! ### Fold lemmas for `build_shadow_map` -/

theorem shadowFold_env_absent (tok : Nat → List Nat) :
    ∀ (pairs : List (Nat × (List Nat × List Nat)))
      (acc : List (List Nat × List Nat) × List (List Nat × List Nat))
      (k : List Nat), (∀ ia ∈ pairs, ia.2.1 ≠ k) →
      dictGet (pairs.foldl (shadowStep tok) acc).1 k = dictGet acc.1 k := by
  intro pairs
  induction pairs with
  | nil => intro acc k _; rfl
  | cons ia rest ih =>
    intro acc k habs
    rw [List.foldl_cons]
    rw [ih _ k (fun ib hb => habs ib (List.mem_cons_of_mem _ hb))]
    exact dictGet_insert_ne acc.1 ia.2.1 k _
      (Ne.symm (habs ia (List.mem_cons_self ia rest)))

theorem shadowFold_swap_absent (tok : Nat → List Nat) :
    ∀ (pairs : List (Nat × (List Nat × List Nat)))
      (acc : List (List Nat × List Nat) × List (List Nat × List Nat))
      (k : List Nat),
      (∀ ia ∈ pairs, generate_shadow_key ia.2.1 (tok ia.1) ≠ k) →
      dictGet (pairs.foldl (shadowStep tok) acc).2 k = dictGet acc.2 k := by
  intro pairs
  induction pairs with
  | nil => intro acc k _; rfl
  | cons ia rest ih =>
    intro acc k habs
    rw [List.foldl_cons]
    rw [ih _ k (fun ib hb => habs ib (List.mem_cons_of_mem _ hb))]
    exact dictGet_insert_ne acc.2 _ k _
      (Ne.symm (habs ia (List.mem_cons_self ia rest)))

/-- Lookups in the two dicts built by the `build_shadow_map` fold, under
distinct names and distinct minted placeholders. -/
theorem shadowFold_lookup (tok : Nat → List Nat) :
    ∀ (pairs : List (Nat × (List Nat × List Nat)))
      (acc : List (List Nat × List Nat) × List (List Nat × List Nat)),
      (pairs.map (fun ia => ia.2.1)).Nodup →
      List.Pairwise (fun ia ib =>
        generate_shadow_key ia.2.1 (tok ia.1) ≠
          generate_shadow_key ib.2.1 (tok ib.1)) pairs →
      ∀ ia ∈ pairs,
        dictGet (pairs.foldl (shadowStep tok) acc).1 ia.2.1 =
          some (generate_shadow_key ia.2.1 (tok ia.1)) ∧
        dictGet (pairs.foldl (shadowStep tok) acc).2
          (generate_shadow_key ia.2.1 (tok ia.1)) = some ia.2.2 := by
  intro pairs
  induction pairs with
  | nil => intro acc _ _ ia hia; simp at hia
  | cons ia0 rest ih =>
    intro acc hnodup hpw ia hia
    rw [List.map_cons, List.nodup_cons] at hnodup
    rcases List.pairwise_cons.mp hpw with ⟨hpw0, hpwrest⟩
    rcases List.mem_cons.mp hia with rfl | hmem
    · constructor
      · rw [List.foldl_cons]
        rw [shadowFold_env_absent tok rest _ ia.2.1 ?habs]
        · exact dictGet_insert_self acc.1 ia.2.1 _
        · intro ib hb hceq
          exact hnodup.1 (by rw [← hceq]; exact List.mem_map_of_mem _ hb)
      · rw [List.foldl_cons]
        rw [shadowFold_swap_absent tok rest _ _
          (fun ib hb => Ne.symm (hpw0 ib hb))]
        exact dictGet_insert_self acc.2 _ _
    · exact ih _ hnodup.2 hpwrest ia hmem

/-- Distinct tokens of equal length produce distinct placeholders. -/
theorem generate_shadow_key_ne {n1 n2 t1 t2 : List Nat}
    (hlen : t1.length = t2.length) (hne : t1 ≠ t2) :
    generate_shadow_key n1 t1 ≠ generate_shadow_key n2 t2 := by
  intro h
  apply hne
  have hrev := congrArg List.reverse h
  simp only [generate_shadow_key, List.reverse_append] at hrev
  have hlenrev : t1.reverse.length = t2.reverse.length := by
    simpa using hlen
  have := List.append_inj_left hrev ?hl
  · exact List.reverse_injective this
  · exact hlenrev

/-- **C8**: for every loaded credential name with a non-empty real value,
`build_shadow_map` produces a `shadow_env` entry whose placeholder has the
form `ftl_shadow_<lowercased name>_<16 hex chars>`, and `swap_table` maps
that placeholder back to the real value
(`swap_table[shadow_env[name]] == real`).  The randomness oracle is assumed
to return 16 lowercase-hex-digit tokens, pairwise distinct across the
loaded keys (what `secrets.token_hex(8)` delivers up to negligible
collision probability); dict keys (`real_keys` names) are unique. -/
theorem build_shadow_map_spec (real_keys : List (List Nat × List Nat))
    (tok : Nat → List Nat)
    (hnodup : (real_keys.map (fun nr => nr.1)).Nodup)
    (htok : ∀ i, i < real_keys.length →
      (tok i).length = 16 ∧ ∀ c ∈ tok i, isHexDigit c = true)
    (hdist : ∀ i, i < real_keys.length → ∀ j, j < real_keys.length → i ≠ j →
      tok i ≠ tok j)
    (name real : List Nat) (hmem : (name, real) ∈ real_keys)
    (hreal : real ≠ []) :
    ∃ t, t.length = 16 ∧ (∀ c ∈ t, isHexDigit c = true) ∧
      dictGet (build_shadow_map real_keys tok).1 name =
        some (SHADOW_PREFIX ++ name.map lowerByte ++ [95] ++ t) ∧
      dictGet (build_shadow_map real_keys tok).2
        (SHADOW_PREFIX ++ name.map lowerByte ++ [95] ++ t) = some real := by
  obtain ⟨i, hget⟩ := List.mem_iff_get.mp hmem
  have hienum : (i.1, (name, real)) ∈ real_keys.enum := by
    rw [← hget]
    exact List.mem_enum_iff_getElem?.mpr (by simp [List.getElem?_eq_getElem i.2])
  have hi : i.1 < real_keys.length := i.2
  obtain ⟨hlen, hhex⟩ := htok i.1 hi
  have hnodupE : (real_keys.enum.map (fun ia => ia.2.1)).Nodup := by
    have hmm : real_keys.enum.map (fun ia => ia.2.1) =
        real_keys.map (fun nr => nr.1) := by
      rw [show (fun ia : Nat × (List Nat × List Nat) => ia.2.1) =
        (fun nr : List Nat × List Nat => nr.1) ∘ Prod.snd from rfl]
      rw [← List.map_map, List.enum_map_snd]
    rw [hmm]
    exact hnodup
  have hpw : List.Pairwise (fun ia ib =>
      generate_shadow_key ia.2.1 (tok ia.1) ≠
        generate_shadow_key ib.2.1 (tok ib.1)) real_keys.enum := by
    have h1 : (real_keys.enum.map Prod.fst).Nodup := by
      rw [List.enum_map_fst]
      exact List.nodup_range _
    have hidx := List.pairwise_map.mp h1
    refine hidx.imp_of_mem ?_
    intro ia ib hma hmb hne
    have hia := List.fst_lt_of_mem_enum hma
    have hib := List.fst_lt_of_mem_enum hmb
    exact generate_shadow_key_ne
      (by rw [(htok ia.1 hia).1, (htok ib.1 hib).1])
      (hdist ia.1 hia ib.1 hib hne)
  have main := shadowFold_lookup tok real_keys.enum ([], []) hnodupE hpw
    (i.1, (name, real)) hienum
  exact ⟨tok i.1, hlen, hhex, main.1, main.2⟩

/-- **C8** witness: one loaded key `"A" ↦ "v"` with a fixed 16-hex-digit
token. -/
theorem build_shadow_map_spec_witness :
    ∃ t, t.length = 16 ∧ (∀ c ∈ t, isHexDigit c = true) ∧
      dictGet (build_shadow_map [([65], [118])]
          (fun _ => bytesOf "0123456789abcdef")).1 [65] =
        some (SHADOW_PREFIX ++ [65].map lowerByte ++ [95] ++ t) ∧
      dictGet (build_shadow_map [([65], [118])]
          (fun _ => bytesOf "0123456789abcdef")).2
        (SHADOW_PREFIX ++ [65].map lowerByte ++ [95] ++ t) = some [118] :=
  build_shadow_map_spec [([65], [118])] (fun _ => bytesOf "0123456789abcdef")
    (by decide) (by decide) (by decide) [65] [118] (by decide) (by decide)

/-! ## Snapshot restore: the overlay loop shared by
`LocalSnapshotStore.restore` (src/ftl/snapshot/local.py:74) and
`S3SnapshotStore.restore` (src/ftl/snapshot/s3.py:121)

An item yielded by `local_path.rglob("*")` is a nonempty relative component
path plus a directory flag; the loop is modelled as the list of filesystem
operations it performs, in order. -/

structure SnapItem where
  rel : List (List Nat)
  isDir : Bool
deriving DecidableEq

inductive RestoreOp where
  | mkdir (path : List (List Nat))
  | mkdirParents (path : List (List Nat))
  | copyFile (src dest : List (List Nat))
deriving DecidableEq

/-- Operations of one loop iteration: items named `.ftl_meta` are skipped
entirely; directories get `mkdir(parents=True, exist_ok=True)`; files get
their parent directory created and `shutil.copy2` to `target / relative`. -/
def restoreItemOps (target : List (List Nat)) (item : SnapItem) : List RestoreOp :=
  if item.rel.getLastD [] = bytesOf ".ftl_meta" then []
  else if item.isDir then [RestoreOp.mkdir (target ++ item.rel)]
  else [RestoreOp.mkdirParents ((target ++ item.rel).dropLast),
        RestoreOp.copyFile item.rel (target ++ item.rel)]

/-- Embedding of the restore overlay loop. -/
def restore_copy (items : List SnapItem) (target : List (List Nat)) :
    List RestoreOp :=
  (items.map (restoreItemOps target)).flatten

theorem getLastD_append_right {α : Type} (l1 l2 : List α) (d : α)
    (h : l2 ≠ []) : (l1 ++ l2).getLastD d = l2.getLastD d := by
  rw [List.getLastD_eq_getLast?, List.getLastD_eq_getLast?,
    List.getLast?_append_of_ne_nil l1 h]

/-- **C9**: restore never creates or overwrites a file named `.ftl_meta` in
the target at any depth — no emitted copy has a destination whose final
component is `.ftl_meta` — while every other file item is copied to its
place under the target with its parent directories created as needed. -/
theorem restore_never_writes_meta (items : List SnapItem)
    (target : List (List Nat)) (hwf : ∀ item ∈ items, item.rel ≠ []) :
    (∀ op ∈ restore_copy items target, ∀ src dest,
      op = RestoreOp.copyFile src dest →
      dest.getLastD [] ≠ bytesOf ".ftl_meta") ∧
    (∀ item ∈ items, item.isDir = false →
      item.rel.getLastD [] ≠ bytesOf ".ftl_meta" →
      RestoreOp.mkdirParents ((target ++ item.rel).dropLast) ∈
        restore_copy items target ∧
      RestoreOp.copyFile item.rel (target ++ item.rel) ∈
        restore_copy items target) := by
  constructor
  · intro op hop src dest heq
    subst heq
    obtain ⟨ops, hops, hmem⟩ := List.mem_flatten.mp hop
    obtain ⟨item, hitem, rfl⟩ := List.mem_map.mp hops
    simp only [restoreItemOps] at hmem
    split at hmem
    · simp at hmem
    · rename_i hmeta
      split at hmem
      · simp at hmem
      · simp only [List.mem_cons, List.not_mem_nil, or_false] at hmem
        rcases hmem with h1 | h2
        · exact absurd h1 (by simp)
        · injection h2 with hsrc hdest
          rw [hdest, getLastD_append_right _ _ _ (hwf item hitem)]
          exact hmeta
  · intro item hitem hdir hmeta
    constructor
    · refine List.mem_flatten.mpr ⟨restoreItemOps target item,
        List.mem_map_of_mem _ hitem, ?_⟩
      simp only [restoreItemOps, if_neg hmeta, hdir]
      simp
    · refine List.mem_flatten.mpr ⟨restoreItemOps target item,
        List.mem_map_of_mem _ hitem, ?_⟩
      simp only [restoreItemOps, if_neg hmeta, hdir]
      simp

/-- **C9** witness: restoring one ordinary file `a` into target `t`. -/
theorem restore_never_writes_meta_witness :
    (∀ op ∈ restore_copy [⟨[[97]], false⟩] [[116]], ∀ src dest,
      op = RestoreOp.copyFile src dest →
      dest.getLastD [] ≠ bytesOf ".ftl_meta") ∧
    (∀ item ∈ [(⟨[[97]], false⟩ : SnapItem)], item.isDir = false →
      item.rel.getLastD [] ≠ bytesOf ".ftl_meta" →
      RestoreOp.mkdirParents (([[116]] ++ item.rel).dropLast) ∈
        restore_copy [⟨[[97]], false⟩] [[116]] ∧
      RestoreOp.copyFile item.rel ([[116]] ++ item.rel) ∈
        restore_copy [⟨[[97]], false⟩] [[116]]) :=
  restore_never_writes_meta [⟨[[97]], false⟩] [[116]] (by decide)

end Ftl

